import Mathlib

/-!
Shallow embedding of the chess-rs core (src/lib.rs, src/position.rs) and a
spec-modelled check detector (the `is_king_in_check` implementation is only
called from src/main.rs; its body is not part of the sources, so it is
modelled from the specification).

Conventions of the embedding:
* Rust `usize` fields become `Nat`; signed offsets become `Int`.
* `Result<T, MoveError>` becomes `Except MoveError T`; Rust's `.ok()`
  adapter becomes `okOpt`.
* A debug-build arithmetic underflow of `usize` subtraction (a Rust panic)
  is made explicit as `Except RuntimeFault`; code that cannot panic stays
  pure.
* The 8x8 array `squares` is embedded as a total function
  `Position → Option ChessPiece`; the indexing precondition of the Rust
  array accesses is the predicate `inBounds` proved for all producible
  positions.
-/

/-- Rust `enum Color { Black, White }`. -/
inductive Color where
  | Black : Color
  | White : Color
deriving DecidableEq, Repr

/-- Rust `enum ChessPieceType` (the per-kind unit structs are collapsed
into plain constructors). -/
inductive ChessPieceType where
  | Pawn : ChessPieceType
  | Knight : ChessPieceType
  | Bishop : ChessPieceType
  | Rook : ChessPieceType
  | Queen : ChessPieceType
  | King : ChessPieceType
deriving DecidableEq, Repr

/-- Rust `struct ChessPiece { color, chess_piece }`. -/
structure ChessPiece where
  color : Color
  chess_piece : ChessPieceType
deriving DecidableEq, Repr

/-- Rust `struct MoveError;` (payload-free error type). -/
structure MoveError where
deriving DecidableEq, Repr

/-- A Rust debug-build runtime fault: unsigned subtraction underflow. -/
inductive RuntimeFault where
  | subUnderflow : RuntimeFault
deriving DecidableEq, Repr

instance {ε α : Type} [DecidableEq ε] [DecidableEq α] : DecidableEq (Except ε α) :=
  fun a b =>
    match a, b with
    | .ok x, .ok y =>
      if h : x = y then .isTrue (by rw [h]) else .isFalse (fun hc => h (Except.ok.inj hc))
    | .error e, .error f =>
      if h : e = f then .isTrue (by rw [h]) else .isFalse (fun hc => h (Except.error.inj hc))
    | .ok _, .error _ => .isFalse (fun hc => Except.noConfusion hc)
    | .error _, .ok _ => .isFalse (fun hc => Except.noConfusion hc)

/-- Rust `struct Position { row: usize, column: usize }` (src/position.rs).
The `row < 8 ∧ column < 8` invariant is not baked into the type (as in Rust,
where both fields are raw `usize`); it is established by the constructors,
see `inBounds` and the C9 theorem. -/
structure Position where
  row : Nat
  column : Nat
deriving DecidableEq, Repr

/-- The array-indexing precondition of `squares[pos.get_row()][pos.get_column()]`
in `Board::get_piece`, `Board::add_piece` and `Board::move_piece`: both
indices are within the 8x8 array. -/
def inBounds (p : Position) : Prop := p.row < 8 ∧ p.column < 8

instance (p : Position) : Decidable (inBounds p) := by
  unfold inBounds; infer_instance

/-- `Position::try_new` (src/position.rs:8-14). -/
def Position.try_new (row column : Nat) : Except MoveError Position :=
  if row < 8 && column < 8 then .ok ⟨row, column⟩ else .error ⟨⟩

/-- `Position::get_column`. -/
def Position.get_column (p : Position) : Nat := p.column

/-- `Position::get_row`. -/
def Position.get_row (p : Position) : Nat := p.row

/-- `Position::try_add` (src/position.rs:24-33): signed offset addition,
failing instead of wrapping when either component would leave `[0,8)`. -/
def Position.try_add (p : Position) (pos : Int × Int) : Except MoveError Position :=
  let new_row : Int := (p.row : Int) + pos.1
  let new_col : Int := (p.column : Int) + pos.2
  if 0 ≤ new_row && 0 ≤ new_col then
    Position.try_new new_row.toNat new_col.toNat
  else
    .error ⟨⟩

/-- Rust `Result::ok()`: forget the error of a `Result`, producing an `Option`. -/
def okOpt (r : Except MoveError Position) : Option Position :=
  match r with
  | .ok p => some p
  | .error _ => none

/-- `Position::get_left_squares` (src/position.rs:35-41): columns
`column-1, …, 0` on the same row, nearest first. -/
def Position.get_left_squares (p : Position) : List Position :=
  (List.range p.column).reverse.map (fun i => ⟨p.row, i⟩)

/-- `Position::get_right_squares` (src/position.rs:43-49): columns
`column+1, …, 7` on the same row, nearest first. -/
def Position.get_right_squares (p : Position) : List Position :=
  (List.range' (p.column + 1) (8 - (p.column + 1))).map (fun i => ⟨p.row, i⟩)

/-- `Position::get_down_squares` (src/position.rs:51-57): rows
`row-1, …, 0` on the same column, nearest first. -/
def Position.get_down_squares (p : Position) : List Position :=
  (List.range p.row).reverse.map (fun i => ⟨i, p.column⟩)

/-- `Position::get_up_squares` (src/position.rs:59-65): rows
`row+1, …, 7` on the same column, nearest first. -/
def Position.get_up_squares (p : Position) : List Position :=
  (List.range' (p.row + 1) (8 - (p.row + 1))).map (fun i => ⟨i, p.column⟩)

/-- Loop body of `get_principal_diagonal_up_squares` (src/position.rs:95-110):
step `(+1,+1)` until row or column reaches 7.  The Rust loop tests
`row == 7 || column == 7`; since positions satisfy `inBounds`, the
equivalent guard `row < 7 ∧ column < 7` is used to make the recursion
well-founded on all of `Nat`. -/
def pduAux (row column : Nat) : List Position :=
  if h : row < 7 ∧ column < 7 then
    ⟨row + 1, column + 1⟩ :: pduAux (row + 1) (column + 1)
  else []
termination_by 7 - row
decreasing_by omega

/-- `Position::get_principal_diagonal_up_squares`. -/
def Position.get_principal_diagonal_up_squares (p : Position) : List Position :=
  pduAux p.row p.column

/-- Loop body of `get_secondary_diagonal_up_squares` (src/position.rs:112-127):
step `(-1,+1)` until row reaches 0 or column reaches 7. -/
def sduAux (row column : Nat) : List Position :=
  if h : 0 < row ∧ column < 7 then
    ⟨row - 1, column + 1⟩ :: sduAux (row - 1) (column + 1)
  else []
termination_by row
decreasing_by omega

/-- `Position::get_secondary_diagonal_up_squares`. -/
def Position.get_secondary_diagonal_up_squares (p : Position) : List Position :=
  sduAux p.row p.column

/-- Loop body of `get_principal_diagonal_down_squares` (src/position.rs:129-144):
step `(-1,-1)` until row or column reaches 0. -/
def pddAux (row column : Nat) : List Position :=
  if h : 0 < row ∧ 0 < column then
    ⟨row - 1, column - 1⟩ :: pddAux (row - 1) (column - 1)
  else []
termination_by row
decreasing_by omega

/-- `Position::get_principal_diagonal_down_squares`. -/
def Position.get_principal_diagonal_down_squares (p : Position) : List Position :=
  pddAux p.row p.column

/-- Loop body of `get_secondary_diagonal_down_squares` (src/position.rs:146-161):
step `(+1,-1)` until row reaches 7 or column reaches 0. -/
def sddAux (row column : Nat) : List Position :=
  if h : row < 7 ∧ 0 < column then
    ⟨row + 1, column - 1⟩ :: sddAux (row + 1) (column - 1)
  else []
termination_by column
decreasing_by omega

/-- `Position::get_secondary_diagonal_down_squares`. -/
def Position.get_secondary_diagonal_down_squares (p : Position) : List Position :=
  sddAux p.row p.column

/-- The nine offsets of `get_surrounding_squares` (src/position.rs:164-174).
Note the list literally contains `(0, 0)`, so the origin square itself is
among the candidates. -/
def surroundingOffsets : List (Int × Int) :=
  [(-1, -1), (-1, 0), (-1, 1), (0, -1), (0, 0), (0, 1), (1, -1), (1, 0), (1, 1)]

/-- `Position::get_surrounding_squares` (src/position.rs:163-180). -/
def Position.get_surrounding_squares (p : Position) : List Position :=
  surroundingOffsets.filterMap (fun off => okOpt (p.try_add off))

/-- Rust `struct Board { squares: [[Option<ChessPiece>; 8]; 8] }`, embedded
as a total function on positions (only `inBounds` positions correspond to
actual array cells; see the C9 theorem). -/
structure Board where
  squares : Position → Option ChessPiece

/-- `Board::new`: the empty board. -/
def Board.new : Board := ⟨fun _ => none⟩

/-- Back-rank piece kind by column, as assigned in `init_board`
(src/lib.rs:95-147): Rook, Knight, Bishop, Queen, King, Bishop, Knight, Rook. -/
def backRankKind (column : Nat) : Option ChessPieceType :=
  match column with
  | 0 => some .Rook
  | 1 => some .Knight
  | 2 => some .Bishop
  | 3 => some .Queen
  | 4 => some .King
  | 5 => some .Bishop
  | 6 => some .Knight
  | 7 => some .Rook
  | _ => none

/-- `Board::init_board` (src/lib.rs:95-147): overwrite rows 0 and 1 with the
White pieces, rows 6 and 7 with the Black pieces, leaving other rows as-is. -/
def Board.init_board (b : Board) : Board :=
  ⟨fun p =>
    if p.row = 0 then (backRankKind p.column).map (fun k => ⟨Color.White, k⟩)
    else if p.row = 1 then
      if p.column < 8 then some ⟨Color.White, ChessPieceType.Pawn⟩ else b.squares p
    else if p.row = 6 then
      if p.column < 8 then some ⟨Color.Black, ChessPieceType.Pawn⟩ else b.squares p
    else if p.row = 7 then (backRankKind p.column).map (fun k => ⟨Color.Black, k⟩)
    else b.squares p⟩

/-- `Board::new_game` (src/lib.rs:89-93). -/
def Board.new_game : Board := Board.new.init_board

/-- `Board::get_piece` (src/lib.rs:149-151). -/
def Board.get_piece (b : Board) (pos : Position) : Option ChessPiece :=
  b.squares pos

/-- Overwrite one square; the building block of `add_piece` / `move_piece`. -/
def Board.setSquare (b : Board) (pos : Position) (v : Option ChessPiece) : Board :=
  ⟨fun q => if q = pos then v else b.squares q⟩

/-- `Board::add_piece` (src/lib.rs:153-156): place/overwrite, always `Ok(())`.
State-passing form: the updated board together with the returned `Result`. -/
def Board.add_piece (b : Board) (piece : ChessPiece) (pos : Position) :
    Board × Except MoveError Unit :=
  (b.setSquare pos (some piece), .ok ())

/-- `Board::move_piece` (src/lib.rs:158-166):
`squares[final] = squares[initial].take()` — read the source square, blank
it, then write the read value over the destination; always `Ok(())`. -/
def Board.move_piece (b : Board) (initial_position final_position : Position) :
    Board × Except MoveError Unit :=
  let taken := b.squares initial_position
  let b1 := b.setSquare initial_position none
  (b1.setSquare final_position taken, .ok ())

/-- `filter_same_color_collision` (src/lib.rs:170-175): a destination is
kept unless it is occupied by a piece of the mover's color. -/
def filter_same_color_collision (chess_piece : Option ChessPiece) (col : Color) : Bool :=
  match chess_piece with
  | some piece => piece.color != col
  | none => true

/-- `WHITE_PAWN_ROW` / `BLACK_PAWN_ROW`; `Pawn::get_starting_row`
(src/lib.rs:463-469). -/
def Pawn.get_starting_row (color : Color) : Nat :=
  if color = Color.White then 1 else 6

/-- `Pawn::move_up` (src/lib.rs:471-477).  For Black the source computes
`pos.get_row() - distance` on `usize`; when `row < distance` this underflows,
a panic in a debug build, modelled as `.error .subUnderflow`.  Otherwise the
result is the `Option` produced by `try_new(..).ok()`. -/
def Pawn.move_up (pos : Position) (distance : Nat) (color : Color) :
    Except RuntimeFault (Option Position) :=
  if color = Color.White then
    .ok (okOpt (Position.try_new (pos.get_row + distance) pos.get_column))
  else if pos.get_row < distance then
    .error .subUnderflow
  else
    .ok (okOpt (Position.try_new (pos.get_row - distance) pos.get_column))

/-- One ray walk of the sliding-piece arms of `get_available_moves`
(e.g. src/lib.rs:190-200): push empty squares, push the first occupied
square iff it holds an opponent piece, then stop. -/
def walkRay (b : Board) (col : Color) : List Position → List Position
  | [] => []
  | sq :: rest =>
    match b.get_piece sq with
    | some p => if p.color ≠ col then [sq] else []
    | none => sq :: walkRay b col rest

/-- The Rook arm of `get_available_moves` (src/lib.rs:189-234):
up, down, left, right rays in source order. -/
def rookMoves (b : Board) (col : Color) (pos : Position) : List Position :=
  walkRay b col pos.get_up_squares ++ walkRay b col pos.get_down_squares ++
    walkRay b col pos.get_left_squares ++ walkRay b col pos.get_right_squares

/-- The Bishop arm of `get_available_moves` (src/lib.rs:256-301):
the four diagonal rays in source order. -/
def bishopMoves (b : Board) (col : Color) (pos : Position) : List Position :=
  walkRay b col pos.get_principal_diagonal_up_squares ++
    walkRay b col pos.get_principal_diagonal_down_squares ++
    walkRay b col pos.get_secondary_diagonal_up_squares ++
    walkRay b col pos.get_secondary_diagonal_down_squares

/-- The Queen arm of `get_available_moves` (src/lib.rs:302-391):
all eight rays in source order. -/
def queenMoves (b : Board) (col : Color) (pos : Position) : List Position :=
  walkRay b col pos.get_up_squares ++ walkRay b col pos.get_down_squares ++
    walkRay b col pos.get_left_squares ++ walkRay b col pos.get_right_squares ++
    walkRay b col pos.get_principal_diagonal_up_squares ++
    walkRay b col pos.get_principal_diagonal_down_squares ++
    walkRay b col pos.get_secondary_diagonal_up_squares ++
    walkRay b col pos.get_secondary_diagonal_down_squares

/-- The Knight offset table of `get_available_moves` (src/lib.rs:236-245). -/
def knightOffsets : List (Int × Int) :=
  [(-2, -1), (-2, 1), (-1, -2), (-1, 2), (1, -2), (1, 2), (2, -1), (2, 1)]

/-- The Knight arm of `get_available_moves` (src/lib.rs:235-255):
`pos.try_add(off).ok().filter(same-color).map(push)` for each offset. -/
def knightMoves (b : Board) (col : Color) (pos : Position) : List Position :=
  knightOffsets.filterMap (fun off =>
    match okOpt (pos.try_add off) with
    | some x => if filter_same_color_collision (b.get_piece x) col then some x else none
    | none => none)

/-- The King arm of `get_available_moves` (src/lib.rs:392-403):
surrounding squares filtered by `filter_same_color_collision` (no ray
blocking and no `break`). -/
def kingMoves (b : Board) (col : Color) (pos : Position) : List Position :=
  pos.get_surrounding_squares.filter
    (fun sq => filter_same_color_collision (b.get_piece sq) col)

/-- `move_up(..).filter(|x| self.get_piece(*x).is_none()).map(push)`:
the pushed destinations of one pawn step. -/
def keepIfEmpty (b : Board) (m : Option Position) : List Position :=
  match m with
  | some x => if (b.get_piece x).isNone then [x] else []
  | none => []

/-- The Pawn arm of `get_available_moves` (src/lib.rs:179-188): single step
onto an empty square; additionally the double step from the starting row
onto an empty destination (the intermediate square is not examined).
`move_up` for distance 1 is evaluated first, as in the source, so its
underflow fault preempts everything else. -/
def pawnMoves (b : Board) (col : Color) (pos : Position) :
    Except RuntimeFault (List Position) :=
  match Pawn.move_up pos 1 col with
  | .error e => .error e
  | .ok m1 =>
    let base := keepIfEmpty b m1
    if Pawn.get_starting_row col = pos.get_row then
      match Pawn.move_up pos 2 col with
      | .error e => .error e
      | .ok m2 => .ok (base ++ keepIfEmpty b m2)
    else
      .ok base

/-- `Board::get_available_moves` (src/lib.rs:168-408), dispatching on the
occupying piece's kind; an empty source square yields the empty list.  The
`Except` layer records the debug-build underflow reachable through the Pawn
arm; no other arm can fault. -/
def Board.get_available_moves (b : Board) (pos : Position) :
    Except RuntimeFault (List Position) :=
  match b.get_piece pos with
  | none => .ok []
  | some piece =>
    match piece.chess_piece with
    | .Pawn => pawnMoves b piece.color pos
    | .Rook => .ok (rookMoves b piece.color pos)
    | .Knight => .ok (knightMoves b piece.color pos)
    | .Bishop => .ok (bishopMoves b piece.color pos)
    | .Queen => .ok (queenMoves b piece.color pos)
    | .King => .ok (kingMoves b piece.color pos)

/-- The eight ray directions of the Geometry component. -/
inductive RayDir where
  | up | down | left | right | pdu | pdd | sdu | sdd
deriving DecidableEq, Repr

/-- Dispatch a direction to the corresponding source ray function. -/
def rayFn (d : RayDir) (p : Position) : List Position :=
  match d with
  | .up => p.get_up_squares
  | .down => p.get_down_squares
  | .left => p.get_left_squares
  | .right => p.get_right_squares
  | .pdu => p.get_principal_diagonal_up_squares
  | .pdd => p.get_principal_diagonal_down_squares
  | .sdu => p.get_secondary_diagonal_up_squares
  | .sdd => p.get_secondary_diagonal_down_squares

/-- The direction signature of a ray: how a member's row and column compare
to the origin's.  Distinct rays have distinct signatures, which makes the
eight rays pairwise disjoint. -/
def raySigProp (d : RayDir) (p q : Position) : Prop :=
  match d with
  | .up => p.row < q.row ∧ q.column = p.column
  | .down => q.row < p.row ∧ q.column = p.column
  | .left => q.row = p.row ∧ q.column < p.column
  | .right => q.row = p.row ∧ p.column < q.column
  | .pdu => p.row < q.row ∧ p.column < q.column
  | .pdd => q.row < p.row ∧ q.column < p.column
  | .sdu => q.row < p.row ∧ p.column < q.column
  | .sdd => p.row < q.row ∧ q.column < p.column

/-- The rays walked by each sliding-piece arm of `get_available_moves`,
in source order; empty for the non-sliding kinds. -/
def sliderDirs (t : ChessPieceType) : List RayDir :=
  match t with
  | .Rook => [.up, .down, .left, .right]
  | .Bishop => [.pdu, .pdd, .sdu, .sdd]
  | .Queen => [.up, .down, .left, .right, .pdu, .pdd, .sdu, .sdd]
  | _ => []

/-- Kinds whose `get_available_moves` arm is a blocked-ray walk. -/
def isSliderKind (t : ChessPieceType) : Prop :=
  t = .Rook ∨ t = .Bishop ∨ t = .Queen

/-- The C5 ray/blocking contract of a single ray `l` against a produced move
list `mv`: every empty square before the first occupied one appears; the
first occupied square appears iff it holds an opponent piece; nothing after
the first occupied square appears. -/
def rayMovesSpec (b : Board) (col : Color) (l mv : List Position) : Prop :=
  (∀ q ∈ l.takeWhile (fun s => (b.get_piece s).isNone), q ∈ mv) ∧
  (∀ x rest, l.dropWhile (fun s => (b.get_piece s).isNone) = x :: rest →
    (∀ pc, b.get_piece x = some pc → (x ∈ mv ↔ pc.color ≠ col)) ∧
    (∀ y ∈ rest, y ∉ mv))

/-- The two-rows-forward destination of a pawn's double step. -/
def twoForward (col : Color) (p : Position) : Position :=
  if col = Color.White then ⟨p.row + 2, p.column⟩ else ⟨p.row - 2, p.column⟩

/-- All 64 board coordinates, row-major. -/
def allPositions : List Position :=
  ((List.range 8).map (fun r => (List.range 8).map (fun c => Position.mk r c))).flatten

/-- Modelled from the spec: the pawn attacking rule of the check detector
(the detector's implementation is not among the sources).  A pawn attacks
exactly its nearest one or two diagonal-forward coordinates, included
unconditionally — regardless of what occupies them — with White attacking
toward increasing rows and Black toward decreasing rows. -/
def pawn_attacking_squares (col : Color) (p : Position) : List Position :=
  let dir : Int := if col = Color.White then 1 else -1
  [((dir, -1) : Int × Int), (dir, 1)].filterMap (fun off => okOpt (p.try_add off))

/-- Modelled from the spec: the attacking squares of a piece, used by the
check detector.  For every kind other than the pawn this is the same
candidate set as move generation; for the pawn it is
`pawn_attacking_squares`. -/
def attacking_squares (b : Board) (pc : ChessPiece) (p : Position) : List Position :=
  match pc.chess_piece with
  | .Pawn => pawn_attacking_squares pc.color p
  | .Knight => knightMoves b pc.color p
  | .Bishop => bishopMoves b pc.color p
  | .Rook => rookMoves b pc.color p
  | .Queen => queenMoves b pc.color p
  | .King => kingMoves b pc.color p

/-- Modelled from the spec: locate the square holding the King of the given
color (first match in row-major scan order; `none` when the board holds no
such king). -/
def Board.find_king (b : Board) (col : Color) : Option Position :=
  allPositions.find? (fun p =>
    match b.get_piece p with
    | some pc => decide (pc.color = col ∧ pc.chess_piece = ChessPieceType.King)
    | none => false)

/-- Whether the opponent piece (if any) on square `p` attacks `target`. -/
def opponent_attacks_from (b : Board) (col : Color) (target p : Position) : Bool :=
  match b.get_piece p with
  | some pc => pc.color != col && decide (target ∈ attacking_squares b pc p)
  | none => false

/-- Modelled from the spec: `target` lies in the union, over every opponent
piece on the board, of that piece's attacking squares. -/
def attacked_by_opponent (b : Board) (col : Color) (target : Position) : Bool :=
  allPositions.any (opponent_attacks_from b col target)

/-- Modelled from the spec: `is_king_in_check` (called at src/main.rs:46;
its body is not among the sources).  Locate the king of `col`; report its
coordinate iff some opponent piece attacks it; report no check when the
board has no king of that color. -/
def Board.is_king_in_check (b : Board) (col : Color) : Option Position :=
  match b.find_king col with
  | none => none
  | some k => if attacked_by_opponent b col k then some k else none

/-! Concrete boards used by the counterexamples and witnesses. -/

/-- White king at (0,4), Black rook at (7,4), nothing else. -/
def checkBoard1 : Board :=
  ⟨fun p =>
    if p = ⟨0, 4⟩ then some ⟨Color.White, ChessPieceType.King⟩
    else if p = ⟨7, 4⟩ then some ⟨Color.Black, ChessPieceType.Rook⟩
    else none⟩

/-- `checkBoard1` with a White pawn additionally at (3,4), blocking file 4. -/
def checkBoard2 : Board :=
  ⟨fun p =>
    if p = ⟨3, 4⟩ then some ⟨Color.White, ChessPieceType.Pawn⟩
    else checkBoard1.squares p⟩

/-- A board with a Black rook but no White king. -/
def noKingBoard : Board :=
  ⟨fun p => if p = ⟨7, 4⟩ then some ⟨Color.Black, ChessPieceType.Rook⟩ else none⟩

/-- White pawn at (1,1) and a Black pawn on its forward diagonal (2,2). -/
def pawnCaptureBoard : Board :=
  ⟨fun p =>
    if p = ⟨1, 1⟩ then some ⟨Color.White, ChessPieceType.Pawn⟩
    else if p = ⟨2, 2⟩ then some ⟨Color.Black, ChessPieceType.Pawn⟩
    else none⟩

/-- A single White rook at (0,0). -/
def rookBoard : Board :=
  ⟨fun p => if p = ⟨0, 0⟩ then some ⟨Color.White, ChessPieceType.Rook⟩ else none⟩

/-- White pawn at (1,0) with its intermediate square (2,0) occupied by a
White rook and the double-step destination (3,0) empty. -/
def blockedPawnBoard : Board :=
  ⟨fun p =>
    if p = ⟨1, 0⟩ then some ⟨Color.White, ChessPieceType.Pawn⟩
    else if p = ⟨2, 0⟩ then some ⟨Color.White, ChessPieceType.Rook⟩
    else none⟩

/-- A Black pawn on row 0 and a White pawn on row 7. -/
def edgePawnBoard : Board :=
  ⟨fun p =>
    if p = ⟨0, 3⟩ then some ⟨Color.Black, ChessPieceType.Pawn⟩
    else if p = ⟨7, 2⟩ then some ⟨Color.White, ChessPieceType.Pawn⟩
    else none⟩

/-- The board produced by moving the rook of `rookBoard` onto its own
square (`move_piece((0,0),(0,0))`). -/
def afterSelfMove : Board :=
  (rookBoard.move_piece ⟨0, 0⟩ ⟨0, 0⟩).1


/-! Helper characterizations of the geometry layer. -/

theorem okOpt_eq_some {r : Except MoveError Position} {q : Position} :
    okOpt r = some q ↔ r = .ok q := by
  cases r <;> simp [okOpt]

theorem try_new_ok_iff {r c : Nat} {q : Position} :
    Position.try_new r c = .ok q ↔ r < 8 ∧ c < 8 ∧ q = ⟨r, c⟩ := by
  simp only [Position.try_new, Bool.and_eq_true, decide_eq_true_eq]
  split_ifs with h
  · simp only [Except.ok.injEq]
    constructor
    · intro he; exact ⟨h.1, h.2, he.symm⟩
    · intro he; exact he.2.2.symm
  · constructor
    · intro he; exact absurd he (by simp)
    · intro he; exact absurd ⟨he.1, he.2.1⟩ h

theorem try_new_error_iff {r c : Nat} :
    Position.try_new r c = .error ⟨⟩ ↔ 8 ≤ r ∨ 8 ≤ c := by
  simp only [Position.try_new, Bool.and_eq_true, decide_eq_true_eq]
  split_ifs with h
  · constructor
    · intro he; exact absurd he (by simp)
    · intro he; omega
  · simp only [true_iff]; omega

theorem try_add_ok_iff {p : Position} {dr dc : Int} {q : Position} :
    p.try_add (dr, dc) = .ok q ↔
      ((q.row : Int) = (p.row : Int) + dr ∧ (q.column : Int) = (p.column : Int) + dc ∧
        q.row < 8 ∧ q.column < 8) := by
  simp only [Position.try_add, Bool.and_eq_true, decide_eq_true_eq]
  split_ifs with h
  · rw [try_new_ok_iff]
    constructor
    · rintro ⟨h1, h2, rfl⟩
      simp only
      omega
    · intro ⟨h1, h2, h3, h4⟩
      refine ⟨by omega, by omega, ?_⟩
      cases q
      simp_all
      omega
  · constructor
    · intro he; exact absurd he (by simp)
    · intro ⟨h1, h2, h3, h4⟩; exact absurd ⟨by omega, by omega⟩ h

theorem try_add_error_iff {p : Position} {dr dc : Int} :
    p.try_add (dr, dc) = .error ⟨⟩ ↔
      ((p.row : Int) + dr < 0 ∨ (p.column : Int) + dc < 0 ∨
        8 ≤ (p.row : Int) + dr ∨ 8 ≤ (p.column : Int) + dc) := by
  simp only [Position.try_add, Bool.and_eq_true, decide_eq_true_eq]
  split_ifs with h
  · rw [try_new_error_iff]
    omega
  · constructor
    · intro _
      omega
    · intro _
      rfl

/-! Membership characterizations of the eight rays. -/

theorem mem_up_squares {p q : Position} :
    q ∈ p.get_up_squares ↔ p.row < q.row ∧ q.row < 8 ∧ q.column = p.column := by
  simp only [Position.get_up_squares, List.mem_map, List.mem_range'_1]
  constructor
  · rintro ⟨i, ⟨h1, h2⟩, rfl⟩
    dsimp only
    omega
  · rintro ⟨h1, h2, h3⟩
    refine ⟨q.row, by omega, ?_⟩
    cases q; simp_all

theorem mem_down_squares {p q : Position} :
    q ∈ p.get_down_squares ↔ q.row < p.row ∧ q.column = p.column := by
  simp only [Position.get_down_squares, List.mem_map, List.mem_reverse, List.mem_range]
  constructor
  · rintro ⟨i, h1, rfl⟩
    dsimp only
    omega
  · rintro ⟨h1, h2⟩
    refine ⟨q.row, by omega, ?_⟩
    cases q; simp_all

theorem mem_left_squares {p q : Position} :
    q ∈ p.get_left_squares ↔ q.row = p.row ∧ q.column < p.column := by
  simp only [Position.get_left_squares, List.mem_map, List.mem_reverse, List.mem_range]
  constructor
  · rintro ⟨i, h1, rfl⟩
    dsimp only
    omega
  · rintro ⟨h1, h2⟩
    refine ⟨q.column, by omega, ?_⟩
    cases q; simp_all

theorem mem_right_squares {p q : Position} :
    q ∈ p.get_right_squares ↔ q.row = p.row ∧ p.column < q.column ∧ q.column < 8 := by
  simp only [Position.get_right_squares, List.mem_map, List.mem_range'_1]
  constructor
  · rintro ⟨i, ⟨h1, h2⟩, rfl⟩
    dsimp only
    omega
  · rintro ⟨h1, h2, h3⟩
    refine ⟨q.column, by omega, ?_⟩
    cases q; simp_all

theorem pduAux_mem {q : Position} : ∀ {r c : Nat}, q ∈ pduAux r c →
    r < q.row ∧ c < q.column ∧ q.row ≤ 7 ∧ q.column ≤ 7 := by
  intro r c
  induction r, c using pduAux.induct with
  | case1 r c hrc ih =>
    intro h
    rw [pduAux, dif_pos hrc] at h
    rcases List.mem_cons.mp h with rfl | h
    · simp only
      omega
    · have := ih h
      omega
  | case2 r c hrc =>
    intro h
    rw [pduAux, dif_neg hrc] at h
    exact absurd h (List.not_mem_nil q)

theorem sduAux_mem {q : Position} : ∀ {r c : Nat}, q ∈ sduAux r c →
    q.row < r ∧ c < q.column ∧ q.column ≤ 7 := by
  intro r c
  induction r, c using sduAux.induct with
  | case1 r c hrc ih =>
    intro h
    rw [sduAux, dif_pos hrc] at h
    rcases List.mem_cons.mp h with rfl | h
    · simp only
      omega
    · have := ih h
      omega
  | case2 r c hrc =>
    intro h
    rw [sduAux, dif_neg hrc] at h
    exact absurd h (List.not_mem_nil q)

theorem pddAux_mem {q : Position} : ∀ {r c : Nat}, q ∈ pddAux r c →
    q.row < r ∧ q.column < c := by
  intro r c
  induction r, c using pddAux.induct with
  | case1 r c hrc ih =>
    intro h
    rw [pddAux, dif_pos hrc] at h
    rcases List.mem_cons.mp h with rfl | h
    · simp only
      omega
    · have := ih h
      omega
  | case2 r c hrc =>
    intro h
    rw [pddAux, dif_neg hrc] at h
    exact absurd h (List.not_mem_nil q)

theorem sddAux_mem {q : Position} : ∀ {r c : Nat}, q ∈ sddAux r c →
    r < q.row ∧ q.row ≤ 7 ∧ q.column < c := by
  intro r c
  induction r, c using sddAux.induct with
  | case1 r c hrc ih =>
    intro h
    rw [sddAux, dif_pos hrc] at h
    rcases List.mem_cons.mp h with rfl | h
    · simp only
      omega
    · have := ih h
      omega
  | case2 r c hrc =>
    intro h
    rw [sddAux, dif_neg hrc] at h
    exact absurd h (List.not_mem_nil q)

/-! No-duplicate and direction-signature facts about the rays. -/

theorem mk_row_injective (c : Nat) : Function.Injective (fun i => Position.mk i c) := by
  intro a b hab
  exact congrArg Position.row hab

theorem mk_col_injective (r : Nat) : Function.Injective (fun i => Position.mk r i) := by
  intro a b hab
  exact congrArg Position.column hab

theorem up_squares_nodup (p : Position) : p.get_up_squares.Nodup :=
  (List.nodup_range' _ _).map (mk_row_injective p.column)

theorem down_squares_nodup (p : Position) : p.get_down_squares.Nodup :=
  (List.nodup_reverse.mpr (List.nodup_range _)).map (mk_row_injective p.column)

theorem left_squares_nodup (p : Position) : p.get_left_squares.Nodup :=
  (List.nodup_reverse.mpr (List.nodup_range _)).map (mk_col_injective p.row)

theorem right_squares_nodup (p : Position) : p.get_right_squares.Nodup :=
  (List.nodup_range' _ _).map (mk_col_injective p.row)

theorem pduAux_nodup : ∀ (r c : Nat), (pduAux r c).Nodup := by
  intro r c
  induction r, c using pduAux.induct with
  | case1 r c hrc ih =>
    rw [pduAux, dif_pos hrc]
    refine List.nodup_cons.mpr ⟨?_, ih⟩
    intro hmem
    have := pduAux_mem hmem
    dsimp only at this
    omega
  | case2 r c hrc =>
    rw [pduAux, dif_neg hrc]
    exact List.nodup_nil

theorem sduAux_nodup : ∀ (r c : Nat), (sduAux r c).Nodup := by
  intro r c
  induction r, c using sduAux.induct with
  | case1 r c hrc ih =>
    rw [sduAux, dif_pos hrc]
    refine List.nodup_cons.mpr ⟨?_, ih⟩
    intro hmem
    have := sduAux_mem hmem
    dsimp only at this
    omega
  | case2 r c hrc =>
    rw [sduAux, dif_neg hrc]
    exact List.nodup_nil

theorem pddAux_nodup : ∀ (r c : Nat), (pddAux r c).Nodup := by
  intro r c
  induction r, c using pddAux.induct with
  | case1 r c hrc ih =>
    rw [pddAux, dif_pos hrc]
    refine List.nodup_cons.mpr ⟨?_, ih⟩
    intro hmem
    have := pddAux_mem hmem
    dsimp only at this
    omega
  | case2 r c hrc =>
    rw [pddAux, dif_neg hrc]
    exact List.nodup_nil

theorem sddAux_nodup : ∀ (r c : Nat), (sddAux r c).Nodup := by
  intro r c
  induction r, c using sddAux.induct with
  | case1 r c hrc ih =>
    rw [sddAux, dif_pos hrc]
    refine List.nodup_cons.mpr ⟨?_, ih⟩
    intro hmem
    have := sddAux_mem hmem
    dsimp only at this
    omega
  | case2 r c hrc =>
    rw [sddAux, dif_neg hrc]
    exact List.nodup_nil

theorem rayFn_nodup (d : RayDir) (p : Position) : (rayFn d p).Nodup := by
  cases d with
  | up => exact up_squares_nodup p
  | down => exact down_squares_nodup p
  | left => exact left_squares_nodup p
  | right => exact right_squares_nodup p
  | pdu => exact pduAux_nodup p.row p.column
  | pdd => exact pddAux_nodup p.row p.column
  | sdu => exact sduAux_nodup p.row p.column
  | sdd => exact sddAux_nodup p.row p.column

theorem mem_raySigProp {d : RayDir} {p q : Position} (h : q ∈ rayFn d p) :
    raySigProp d p q := by
  cases d with
  | up =>
    have := mem_up_squares.mp h
    exact ⟨this.1, this.2.2⟩
  | down =>
    have := mem_down_squares.mp h
    exact ⟨this.1, this.2⟩
  | left =>
    have := mem_left_squares.mp h
    exact ⟨this.1, this.2⟩
  | right =>
    have := mem_right_squares.mp h
    exact ⟨this.1, this.2.1⟩
  | pdu =>
    have := pduAux_mem h
    exact ⟨this.1, this.2.1⟩
  | pdd =>
    have := pddAux_mem h
    exact ⟨this.1, this.2⟩
  | sdu =>
    have := sduAux_mem h
    exact ⟨this.1, this.2.1⟩
  | sdd =>
    have := sddAux_mem h
    exact ⟨this.1, this.2.2⟩

theorem rayFn_disjoint {d d' : RayDir} (hne : d ≠ d') {p q : Position}
    (h1 : q ∈ rayFn d p) (h2 : q ∈ rayFn d' p) : False := by
  have f1 := mem_raySigProp h1
  have f2 := mem_raySigProp h2
  cases d <;> cases d' <;>
    first
      | exact hne rfl
      | (simp only [raySigProp] at f1 f2; omega)

/-! Structure of a single blocked-ray walk. -/

theorem walkRay_subset {b : Board} {col : Color} :
    ∀ {l : List Position} {q : Position}, q ∈ walkRay b col l → q ∈ l := by
  intro l
  induction l with
  | nil => intro q h; exact absurd h (List.not_mem_nil q)
  | cons a t ih =>
    intro q h
    cases hg : b.get_piece a with
    | some pc =>
      simp only [walkRay, hg] at h
      split at h
      · rcases List.mem_singleton.mp h with rfl
        exact List.mem_cons_self _ _
      · exact absurd h (List.not_mem_nil q)
    | none =>
      simp only [walkRay, hg] at h
      rcases List.mem_cons.mp h with rfl | h
      · exact List.mem_cons_self _ _
      · exact List.mem_cons_of_mem _ (ih h)

theorem walkRay_eq (b : Board) (col : Color) (l : List Position) :
    walkRay b col l =
      l.takeWhile (fun s => (b.get_piece s).isNone) ++
        (match l.dropWhile (fun s => (b.get_piece s).isNone) with
         | [] => []
         | x :: _ =>
           match b.get_piece x with
           | some pc => if pc.color ≠ col then [x] else []
           | none => []) := by
  induction l with
  | nil => rfl
  | cons a t ih =>
    cases hg : b.get_piece a with
    | some pc =>
      rw [walkRay, hg]
      rw [List.takeWhile_cons, List.dropWhile_cons]
      simp only [hg, Option.isNone_some, Bool.false_eq_true, if_false]
      simp only [List.nil_append]
    | none =>
      rw [walkRay, hg]
      rw [List.takeWhile_cons, List.dropWhile_cons]
      simp only [hg, Option.isNone_none, if_true]
      rw [List.cons_append, ih]

/-- Core of the sliding-piece correctness proof: if the move list `mv`
consists exactly of the union of the blocked-ray walks of a family of
pairwise-disjoint rays, then each ray's contribution satisfies the
blocking contract. -/
theorem rayMovesSpec_of_mem (b : Board) (col : Color) (p : Position) (mv : List Position)
    (dirs : List RayDir) (d : RayDir) (hd : d ∈ dirs)
    (hmv : ∀ q, q ∈ mv ↔ ∃ d' ∈ dirs, q ∈ walkRay b col (rayFn d' p)) :
    rayMovesSpec b col (rayFn d p) mv := by
  constructor
  · intro q hq
    rw [hmv]
    refine ⟨d, hd, ?_⟩
    rw [walkRay_eq]
    exact List.mem_append_left _ hq
  · intro x rest hdrop
    have hnodup : (rayFn d p).Nodup := rayFn_nodup d p
    have hsplit := List.takeWhile_append_dropWhile
      (p := fun s => (b.get_piece s).isNone) (l := rayFn d p)
    rw [hdrop] at hsplit
    rw [← hsplit, List.nodup_append] at hnodup
    obtain ⟨htwnd, hxr_nd, hdisj⟩ := hnodup
    have hx_mem : x ∈ rayFn d p := by
      rw [← hsplit]
      exact List.mem_append_right _ (List.mem_cons_self _ _)
    constructor
    · intro pc hpc
      constructor
      · intro hxmv
        rw [hmv] at hxmv
        obtain ⟨d', hd', hwalk⟩ := hxmv
        by_cases hdd : d' = d
        · subst hdd
          rw [walkRay_eq] at hwalk
          rcases List.mem_append.mp hwalk with htw | hopt
          · have := List.mem_takeWhile_imp htw
            rw [hpc] at this
            exact absurd this (by simp)
          · rw [hdrop] at hopt
            simp only [hpc] at hopt
            split at hopt
            · next hcol => exact hcol
            · exact absurd hopt (List.not_mem_nil x)
        · exact absurd (walkRay_subset hwalk) (fun hmem => rayFn_disjoint hdd hmem hx_mem)
      · intro hcol
        rw [hmv]
        refine ⟨d, hd, ?_⟩
        rw [walkRay_eq]
        apply List.mem_append_right
        rw [hdrop]
        simp only [hpc, if_pos hcol]
        exact List.mem_singleton.mpr rfl
    · intro y hy hymv
      rw [hmv] at hymv
      obtain ⟨d', hd', hwalk⟩ := hymv
      have hy_mem : y ∈ rayFn d p := by
        rw [← hsplit]
        exact List.mem_append_right _ (List.mem_cons_of_mem _ hy)
      by_cases hdd : d' = d
      · subst hdd
        rw [walkRay_eq] at hwalk
        rcases List.mem_append.mp hwalk with htw | hopt
        · exact hdisj htw (List.mem_cons_of_mem _ hy)
        · rw [hdrop] at hopt
          have hyx : y = x := by
            rcases hg : b.get_piece x with _ | pc
            · simp only [hg] at hopt
              exact absurd hopt (List.not_mem_nil y)
            · simp only [hg] at hopt
              split at hopt
              · exact List.mem_singleton.mp hopt
              · exact absurd hopt (List.not_mem_nil y)
          subst hyx
          exact (List.nodup_cons.mp hxr_nd).1 hy
      · exact rayFn_disjoint hdd (walkRay_subset hwalk) hy_mem

theorem mem_rookMoves_iff (b : Board) (col : Color) (p q : Position) :
    q ∈ rookMoves b col p ↔
      ∃ d ∈ ([.up, .down, .left, .right] : List RayDir),
        q ∈ walkRay b col (rayFn d p) := by
  simp only [rookMoves, rayFn, List.mem_append, List.mem_cons, List.not_mem_nil, or_false,
    exists_eq_or_imp, exists_eq_left]
  tauto

theorem mem_bishopMoves_iff (b : Board) (col : Color) (p q : Position) :
    q ∈ bishopMoves b col p ↔
      ∃ d ∈ ([.pdu, .pdd, .sdu, .sdd] : List RayDir),
        q ∈ walkRay b col (rayFn d p) := by
  simp only [bishopMoves, rayFn, List.mem_append, List.mem_cons, List.not_mem_nil, or_false,
    exists_eq_or_imp, exists_eq_left]
  tauto

theorem mem_queenMoves_iff (b : Board) (col : Color) (p q : Position) :
    q ∈ queenMoves b col p ↔
      ∃ d ∈ ([.up, .down, .left, .right, .pdu, .pdd, .sdu, .sdd] : List RayDir),
        q ∈ walkRay b col (rayFn d p) := by
  simp only [queenMoves, rayFn, List.mem_append, List.mem_cons, List.not_mem_nil, or_false,
    exists_eq_or_imp, exists_eq_left]
  tauto

/-- C5: for every board, every position occupied by a Rook, Bishop or Queen,
and every ray applicable to that kind, the ray's squares are considered
nearest-to-farthest; every empty square before the first occupied one is in
`get_available_moves`, the first occupied square is in the result iff it
holds an opponent-colored piece, and no square of the ray beyond the first
occupied one appears in the result. -/
theorem C5_sliding_ray_blocking (b : Board) (p : Position) (pc : ChessPiece)
    (mv : List Position) (hpc : b.get_piece p = some pc)
    (hslider : isSliderKind pc.chess_piece)
    (hmv : b.get_available_moves p = .ok mv) :
    ∀ d ∈ sliderDirs pc.chess_piece, rayMovesSpec b pc.color (rayFn d p) mv := by
  rcases hslider with hk | hk | hk
  · intro d hd
    rw [hk] at hd
    simp only [sliderDirs] at hd
    simp only [Board.get_available_moves, hpc, hk, Except.ok.injEq] at hmv
    refine rayMovesSpec_of_mem b pc.color p mv [.up, .down, .left, .right] d hd ?_
    intro q
    rw [← hmv]
    exact mem_rookMoves_iff b pc.color p q
  · intro d hd
    rw [hk] at hd
    simp only [sliderDirs] at hd
    simp only [Board.get_available_moves, hpc, hk, Except.ok.injEq] at hmv
    refine rayMovesSpec_of_mem b pc.color p mv [.pdu, .pdd, .sdu, .sdd] d hd ?_
    intro q
    rw [← hmv]
    exact mem_bishopMoves_iff b pc.color p q
  · intro d hd
    rw [hk] at hd
    simp only [sliderDirs] at hd
    simp only [Board.get_available_moves, hpc, hk, Except.ok.injEq] at hmv
    refine rayMovesSpec_of_mem b pc.color p mv
      [.up, .down, .left, .right, .pdu, .pdd, .sdu, .sdd] d hd ?_
    intro q
    rw [← hmv]
    exact mem_queenMoves_iff b pc.color p q

/-- Witness for C5 at a concrete input: the lone White rook of `rookBoard`
and its upward ray. -/
theorem C5_sliding_witness :
    rookBoard.get_piece ⟨0, 0⟩ = some ⟨Color.White, ChessPieceType.Rook⟩ ∧
    isSliderKind ChessPieceType.Rook ∧
    rookBoard.get_available_moves ⟨0, 0⟩ = .ok (rookMoves rookBoard Color.White ⟨0, 0⟩) ∧
    RayDir.up ∈ sliderDirs ChessPieceType.Rook ∧
    rayMovesSpec rookBoard Color.White (rayFn RayDir.up ⟨0, 0⟩)
      (rookMoves rookBoard Color.White ⟨0, 0⟩) :=
  ⟨by decide, Or.inl rfl, rfl, by simp [sliderDirs],
   C5_sliding_ray_blocking rookBoard ⟨0, 0⟩ ⟨Color.White, ChessPieceType.Rook⟩
     (rookMoves rookBoard Color.White ⟨0, 0⟩) (by decide) (Or.inl rfl) rfl
     RayDir.up (by simp [sliderDirs])⟩

/-- C8: `try_new` succeeds exactly on in-range indices, returning the very
coordinate, and fails with the out-of-bounds error otherwise; `try_add`
fails (never wraps or clamps) whenever the offset result would be negative
or at least 8 on either axis, and otherwise returns the offset coordinate. -/
theorem C8_try_new_try_add :
    (∀ r c : Nat, r < 8 → c < 8 → Position.try_new r c = .ok ⟨r, c⟩) ∧
    (∀ r c : Nat, 8 ≤ r ∨ 8 ≤ c → Position.try_new r c = .error ⟨⟩) ∧
    (∀ (p : Position) (dr dc : Int),
      ((p.row : Int) + dr < 0 ∨ (p.column : Int) + dc < 0 ∨
        8 ≤ (p.row : Int) + dr ∨ 8 ≤ (p.column : Int) + dc) →
      p.try_add (dr, dc) = .error ⟨⟩) ∧
    (∀ (p : Position) (dr dc : Int) (q : Position),
      (q.row : Int) = (p.row : Int) + dr → (q.column : Int) = (p.column : Int) + dc →
      inBounds q → p.try_add (dr, dc) = .ok q) := by
  refine ⟨?_, ?_, ?_, ?_⟩
  · intro r c h1 h2
    rw [try_new_ok_iff]
    exact ⟨h1, h2, rfl⟩
  · intro r c h
    rw [try_new_error_iff]
    exact h
  · intro p dr dc h
    rw [try_add_error_iff]
    exact h
  · intro p dr dc q h1 h2 hq
    rw [try_add_ok_iff]
    exact ⟨h1, h2, hq.1, hq.2⟩

/-- Witness for C8 at concrete inputs. -/
theorem C8_bounds_witness :
    Position.try_new 2 3 = .ok ⟨2, 3⟩ ∧
    Position.try_new 8 0 = .error ⟨⟩ ∧
    Position.try_add ⟨0, 0⟩ (-1, 0) = .error ⟨⟩ ∧
    Position.try_add ⟨2, 3⟩ (1, -1) = .ok ⟨3, 2⟩ :=
  ⟨C8_try_new_try_add.1 2 3 (by decide) (by decide),
   C8_try_new_try_add.2.1 8 0 (Or.inl (by decide)),
   C8_try_new_try_add.2.2.1 ⟨0, 0⟩ (-1) 0 (by decide),
   C8_try_new_try_add.2.2.2 ⟨2, 3⟩ 1 (-1) ⟨3, 2⟩ (by decide) (by decide) (by decide)⟩

/-- C9: every position produced by `try_new`, `try_add`, the eight ray
functions (from an in-bounds origin) or `get_surrounding_squares` satisfies
`inBounds`, the precondition of the array indexing performed by
`get_piece`, `add_piece` and `move_piece`. -/
theorem C9_positions_in_bounds :
    (∀ (r c : Nat) (p : Position), Position.try_new r c = .ok p → inBounds p) ∧
    (∀ (p : Position) (off : Int × Int) (q : Position), p.try_add off = .ok q → inBounds q) ∧
    (∀ (d : RayDir) (p : Position), inBounds p → ∀ q ∈ rayFn d p, inBounds q) ∧
    (∀ (p : Position), ∀ q ∈ p.get_surrounding_squares, inBounds q) := by
  refine ⟨?_, ?_, ?_, ?_⟩
  · intro r c p h
    rw [try_new_ok_iff] at h
    obtain ⟨h1, h2, rfl⟩ := h
    exact ⟨h1, h2⟩
  · rintro p ⟨dr, dc⟩ q h
    rw [try_add_ok_iff] at h
    exact ⟨h.2.2.1, h.2.2.2⟩
  · intro d p hp q hq
    obtain ⟨hr, hc⟩ := hp
    cases d with
    | up =>
      have h := mem_up_squares.mp hq
      exact ⟨by omega, by omega⟩
    | down =>
      have h := mem_down_squares.mp hq
      exact ⟨by omega, by omega⟩
    | left =>
      have h := mem_left_squares.mp hq
      exact ⟨by omega, by omega⟩
    | right =>
      have h := mem_right_squares.mp hq
      exact ⟨by omega, by omega⟩
    | pdu =>
      have h := pduAux_mem hq
      exact ⟨by omega, by omega⟩
    | pdd =>
      have h := pddAux_mem hq
      exact ⟨by omega, by omega⟩
    | sdu =>
      have h := sduAux_mem hq
      exact ⟨by omega, by omega⟩
    | sdd =>
      have h := sddAux_mem hq
      exact ⟨by omega, by omega⟩
  · intro p q hq
    simp only [Position.get_surrounding_squares, List.mem_filterMap, okOpt_eq_some] at hq
    obtain ⟨⟨dr, dc⟩, _, hok⟩ := hq
    rw [try_add_ok_iff] at hok
    exact ⟨hok.2.2.1, hok.2.2.2⟩

/-- Witness for C9 at a concrete input. -/
theorem C9_in_bounds_witness :
    Position.try_new 0 0 = .ok ⟨0, 0⟩ ∧ inBounds (⟨0, 0⟩ : Position) :=
  ⟨by decide, C9_positions_in_bounds.1 0 0 ⟨0, 0⟩ (by decide)⟩

/-- Counterexample to C3 as stated: `get_surrounding_squares` does include
the origin coordinate itself (the offset list contains `(0,0)`), so the
result is not restricted to Chebyshev distance exactly 1. -/
theorem C3_surrounding_counterexample :
    (⟨3, 3⟩ : Position) ∈ (Position.mk 3 3).get_surrounding_squares := by decide

/-- C3 (amended): `get_surrounding_squares c` returns exactly the in-bounds
coordinates at Chebyshev distance at most 1 from `c` — including `c`
itself — so at most 9 squares, fewer on edges and corners. -/
theorem C3_surrounding_chebyshev (p q : Position) :
    q ∈ p.get_surrounding_squares ↔
      (inBounds q ∧ q.row ≤ p.row + 1 ∧ p.row ≤ q.row + 1 ∧
        q.column ≤ p.column + 1 ∧ p.column ≤ q.column + 1) := by
  simp only [Position.get_surrounding_squares, surroundingOffsets, List.mem_filterMap,
    List.mem_cons, List.not_mem_nil, or_false, okOpt_eq_some]
  constructor
  · rintro ⟨off, hoff, hok⟩
    rcases hoff with rfl | rfl | rfl | rfl | rfl | rfl | rfl | rfl | rfl <;>
      (rw [try_add_ok_iff] at hok
       exact ⟨⟨by omega, by omega⟩, by omega, by omega, by omega, by omega⟩)
  · rintro ⟨⟨hqr, hqc⟩, h1, h2, h3, h4⟩
    refine ⟨((q.row : Int) - p.row, (q.column : Int) - p.column), ?_, ?_⟩
    · have hr : (q.row : Int) - p.row = -1 ∨ (q.row : Int) - p.row = 0 ∨
          (q.row : Int) - p.row = 1 := by omega
      have hc : (q.column : Int) - p.column = -1 ∨ (q.column : Int) - p.column = 0 ∨
          (q.column : Int) - p.column = 1 := by omega
      rcases hr with hr | hr | hr <;> rcases hc with hc | hc | hc <;> rw [hr, hc] <;> simp
    · rw [try_add_ok_iff]
      exact ⟨by omega, by omega, hqr, hqc⟩

/-! Structure of the pawn arm. -/

theorem keepIfEmpty_mem {b : Board} {m : Option Position} {q : Position}
    (h : q ∈ keepIfEmpty b m) : m = some q ∧ b.get_piece q = none := by
  cases m with
  | none => exact absurd h (List.not_mem_nil q)
  | some x =>
    simp only [keepIfEmpty] at h
    split at h
    · next hemp =>
      rcases List.mem_singleton.mp h with rfl
      exact ⟨rfl, Option.isNone_iff_eq_none.mp hemp⟩
    · exact absurd h (List.not_mem_nil q)

theorem keepIfEmpty_self_mem {b : Board} {q : Position} (hemp : b.get_piece q = none) :
    q ∈ keepIfEmpty b (some q) := by
  simp only [keepIfEmpty, hemp, Option.isNone_none, if_true]
  exact List.mem_singleton.mpr rfl

theorem move_up_ok_some {p : Position} {d : Nat} {col : Color} {q : Position}
    (h : Pawn.move_up p d col = .ok (some q)) :
    q.column = p.column ∧
      ((col = .White ∧ q.row = p.row + d) ∨ (col = .Black ∧ d ≤ p.row ∧ q.row + d = p.row)) ∧
      q.row < 8 ∧ q.column < 8 := by
  unfold Pawn.move_up at h
  by_cases h1 : col = Color.White
  · rw [if_pos h1] at h
    simp only [Except.ok.injEq] at h
    rw [okOpt_eq_some, try_new_ok_iff] at h
    obtain ⟨hr, hc, rfl⟩ := h
    exact ⟨rfl, Or.inl ⟨h1, rfl⟩, hr, hc⟩
  · rw [if_neg h1] at h
    by_cases h2 : p.get_row < d
    · rw [if_pos h2] at h
      exact Except.noConfusion h
    · rw [if_neg h2] at h
      simp only [Except.ok.injEq] at h
      rw [okOpt_eq_some, try_new_ok_iff] at h
      obtain ⟨hr, hc, rfl⟩ := h
      have hcb : col = Color.Black := by
        cases col
        · rfl
        · exact absurd rfl h1
      dsimp only [Position.get_row] at h2
      refine ⟨rfl, Or.inr ⟨hcb, by omega, ?_⟩, hr, hc⟩
      dsimp only [Position.get_row, Position.get_column]
      omega

theorem pawnMoves_ok_mem {b : Board} {col : Color} {p : Position} {l : List Position}
    (h : pawnMoves b col p = .ok l) {q : Position} (hq : q ∈ l) :
    ∃ d, (d = 1 ∨ (d = 2 ∧ Pawn.get_starting_row col = p.row)) ∧
      Pawn.move_up p d col = .ok (some q) ∧ b.get_piece q = none := by
  unfold pawnMoves at h
  cases h1 : Pawn.move_up p 1 col with
  | error e =>
    rw [h1] at h
    exact Except.noConfusion h
  | ok m1 =>
    simp only [h1] at h
    by_cases hst : Pawn.get_starting_row col = p.get_row
    · rw [if_pos hst] at h
      cases h2 : Pawn.move_up p 2 col with
      | error e =>
        rw [h2] at h
        exact Except.noConfusion h
      | ok m2 =>
        simp only [h2] at h
        simp only [Except.ok.injEq] at h
        subst h
        rcases List.mem_append.mp hq with hq | hq
        · obtain ⟨hm, hemp⟩ := keepIfEmpty_mem hq
          exact ⟨1, Or.inl rfl, by rw [h1, hm], hemp⟩
        · obtain ⟨hm, hemp⟩ := keepIfEmpty_mem hq
          exact ⟨2, Or.inr ⟨rfl, hst⟩, by rw [h2, hm], hemp⟩
    · rw [if_neg hst] at h
      simp only [Except.ok.injEq] at h
      subst h
      obtain ⟨hm, hemp⟩ := keepIfEmpty_mem hq
      exact ⟨1, Or.inl rfl, by rw [h1, hm], hemp⟩

theorem pawnMoves_double_mem {b : Board} {col : Color} {p : Position} {l : List Position}
    (h : pawnMoves b col p = .ok l) (hst : Pawn.get_starting_row col = p.row)
    {q : Position} (h2 : Pawn.move_up p 2 col = .ok (some q))
    (hemp : b.get_piece q = none) : q ∈ l := by
  unfold pawnMoves at h
  cases h1 : Pawn.move_up p 1 col with
  | error e =>
    rw [h1] at h
    exact Except.noConfusion h
  | ok m1 =>
    simp only [h1] at h
    dsimp only [Position.get_row] at h
    rw [if_pos hst] at h
    simp only [h2] at h
    simp only [Except.ok.injEq] at h
    subst h
    exact List.mem_append_right _ (keepIfEmpty_self_mem hemp)

/-- Counterexample to C2 as stated: a White pawn at (1,1) with a Black pawn
on its forward diagonal (2,2) does not get (2,2) in its move list — the
pawn arm of `get_available_moves` generates no diagonal captures at all. -/
theorem C2_pawn_capture_counterexample :
    ¬ ∃ l, pawnCaptureBoard.get_available_moves ⟨1, 1⟩ = .ok l ∧ (⟨2, 2⟩ : Position) ∈ l := by
  rintro ⟨l, hl, hmem⟩
  have heq : pawnCaptureBoard.get_available_moves ⟨1, 1⟩ = .ok [⟨2, 1⟩, ⟨3, 1⟩] := by decide
  rw [heq] at hl
  have : ([⟨2, 1⟩, ⟨3, 1⟩] : List Position) = l := Except.ok.inj hl
  subst this
  revert hmem
  decide

/-- C2 (amended): a pawn's move list contains only squares in the pawn's own
column — the two diagonal-forward squares never appear, whether occupied by
an opponent or empty. -/
theorem C2_pawn_moves_same_column (b : Board) (p : Position) (pc : ChessPiece)
    (l : List Position) (hp : b.get_piece p = some pc)
    (hk : pc.chess_piece = ChessPieceType.Pawn)
    (hok : b.get_available_moves p = .ok l) :
    ∀ q ∈ l, q.column = p.column := by
  intro q hq
  simp only [Board.get_available_moves, hp, hk] at hok
  obtain ⟨d, _, hmu, _⟩ := pawnMoves_ok_mem hok hq
  exact (move_up_ok_some hmu).1

/-- Witness for C2 (amended) at a concrete input. -/
theorem C2_same_column_witness :
    pawnCaptureBoard.get_piece ⟨1, 1⟩ = some ⟨Color.White, ChessPieceType.Pawn⟩ ∧
    pawnCaptureBoard.get_available_moves ⟨1, 1⟩ = .ok [⟨2, 1⟩, ⟨3, 1⟩] ∧
    (⟨2, 1⟩ : Position).column = (⟨1, 1⟩ : Position).column :=
  ⟨by decide, by decide,
   C2_pawn_moves_same_column pawnCaptureBoard ⟨1, 1⟩ ⟨Color.White, ChessPieceType.Pawn⟩
     [⟨2, 1⟩, ⟨3, 1⟩] (by decide) rfl (by decide) ⟨2, 1⟩ (by decide)⟩

/-- Counterexample to C4 as stated: from the initial position, the moves of
square (1,1) do not contain (3,0) — (1,1) holds the White b-pawn, not a
knight (the knight sits at (0,1)). -/
theorem C4_knight_square_counterexample :
    ¬ ∃ l, Board.new_game.get_available_moves ⟨1, 1⟩ = .ok l ∧ (⟨3, 0⟩ : Position) ∈ l := by
  rintro ⟨l, hl, hmem⟩
  have heq : Board.new_game.get_available_moves ⟨1, 1⟩ = .ok [⟨2, 1⟩, ⟨3, 1⟩] := by decide
  rw [heq] at hl
  have : ([⟨2, 1⟩, ⟨3, 1⟩] : List Position) = l := Except.ok.inj hl
  subst this
  revert hmem
  decide

/-- C4 (amended): from `new_game`, `get_available_moves` at (1,1) — the
White b-pawn's starting square — returns exactly the single and double
forward steps (2,1) and (3,1). -/
theorem C4_new_game_moves_1_1 :
    Board.new_game.get_available_moves ⟨1, 1⟩ = .ok [⟨2, 1⟩, ⟨3, 1⟩] := by decide

/-- C6: a pawn on its color's starting row (1 for White, 6 for Black) has
the two-rows-forward square in its move list iff that destination is empty,
with no condition on the intermediate square; a pawn not on its starting
row only ever moves exactly one row. -/
theorem C6_pawn_double_step (b : Board) (p : Position) (pc : ChessPiece)
    (l : List Position) (hp : b.get_piece p = some pc)
    (hk : pc.chess_piece = ChessPieceType.Pawn)
    (hok : b.get_available_moves p = .ok l) :
    (p.row = Pawn.get_starting_row pc.color → p.column < 8 →
      (twoForward pc.color p ∈ l ↔ b.get_piece (twoForward pc.color p) = none)) ∧
    (p.row ≠ Pawn.get_starting_row pc.color →
      ∀ q ∈ l, q.row = p.row + 1 ∨ q.row + 1 = p.row) := by
  simp only [Board.get_available_moves, hp, hk] at hok
  constructor
  · intro hrow hcol
    have hmu2 : Pawn.move_up p 2 pc.color = .ok (some (twoForward pc.color p)) := by
      cases hc : pc.color with
      | White =>
        rw [hc] at hrow
        simp [Pawn.get_starting_row] at hrow
        unfold Pawn.move_up
        rw [if_pos rfl]
        have ht : Position.try_new (p.get_row + 2) p.get_column = .ok ⟨p.row + 2, p.column⟩ := by
          rw [try_new_ok_iff]
          refine ⟨?_, ?_, rfl⟩
          · dsimp only [Position.get_row]
            omega
          · dsimp only [Position.get_column]
            omega
        rw [ht]
        rfl
      | Black =>
        rw [hc] at hrow
        simp [Pawn.get_starting_row] at hrow
        unfold Pawn.move_up
        rw [if_neg (show ¬(Color.Black = Color.White) by decide)]
        have hge : ¬(p.get_row < 2) := by
          dsimp only [Position.get_row]
          omega
        rw [if_neg hge]
        have ht : Position.try_new (p.get_row - 2) p.get_column = .ok ⟨p.row - 2, p.column⟩ := by
          rw [try_new_ok_iff]
          refine ⟨?_, ?_, rfl⟩
          · dsimp only [Position.get_row]
            omega
          · dsimp only [Position.get_column]
            omega
        rw [ht]
        rfl
    constructor
    · intro htf
      obtain ⟨d, hd, hmu, hemp⟩ := pawnMoves_ok_mem hok htf
      rcases hd with rfl | ⟨rfl, hst⟩
      · exfalso
        have hfacts := move_up_ok_some hmu
        rcases hfacts.2.1 with ⟨hw, hr⟩ | ⟨hb, hge, hr⟩
        · simp [twoForward, hw] at hr
        · have hr2 : p.row - 2 + 1 = p.row := by
            simpa [twoForward, hb] using hr
          rw [hb] at hrow
          simp [Pawn.get_starting_row] at hrow
          omega
      · exact hemp
    · intro hemp
      exact pawnMoves_double_mem hok hrow.symm hmu2 hemp
  · intro hne q hq
    obtain ⟨d, hd, hmu, _⟩ := pawnMoves_ok_mem hok hq
    rcases hd with rfl | ⟨rfl, hst⟩
    · rcases (move_up_ok_some hmu).2.1 with ⟨_, hr⟩ | ⟨_, _, hr⟩
      · exact Or.inl hr
      · exact Or.inr hr
    · exact absurd hst.symm hne

/-- Witness for C6 at a concrete input: a White pawn on its starting row
with the intermediate square occupied and the double-step destination
empty; the double step is present anyway. -/
theorem C6_double_step_witness :
    blockedPawnBoard.get_piece ⟨1, 0⟩ = some ⟨Color.White, ChessPieceType.Pawn⟩ ∧
    blockedPawnBoard.get_piece ⟨2, 0⟩ = some ⟨Color.White, ChessPieceType.Rook⟩ ∧
    blockedPawnBoard.get_available_moves ⟨1, 0⟩ = .ok [⟨3, 0⟩] ∧
    (twoForward Color.White ⟨1, 0⟩ ∈ ([⟨3, 0⟩] : List Position) ↔
      blockedPawnBoard.get_piece (twoForward Color.White ⟨1, 0⟩) = none) :=
  ⟨by decide, by decide, by decide,
   (C6_pawn_double_step blockedPawnBoard ⟨1, 0⟩ ⟨Color.White, ChessPieceType.Pawn⟩
     [⟨3, 0⟩] (by decide) rfl (by decide)).1 (by decide) (by decide)⟩

/-- C10: `get_available_moves` is not total.  For a Black pawn on row 0 the
very first step computes `0 - 1` on `usize` inside `Pawn::move_up`, which
underflows (a panic in a debug build, modelled as `.error .subUnderflow`);
for a White pawn on row 7 the symmetric overflow is instead absorbed
gracefully by `try_new`, yielding an empty move list. -/
theorem C10_pawn_underflow :
    (∀ (b : Board) (p : Position) (pc : ChessPiece), b.get_piece p = some pc →
      pc.chess_piece = ChessPieceType.Pawn → pc.color = Color.Black → p.row = 0 →
      b.get_available_moves p = .error RuntimeFault.subUnderflow) ∧
    (∀ (b : Board) (p : Position) (pc : ChessPiece), b.get_piece p = some pc →
      pc.chess_piece = ChessPieceType.Pawn → pc.color = Color.White → p.row = 7 →
      b.get_available_moves p = .ok []) := by
  constructor
  · intro b p pc hp hk hc hrow
    simp only [Board.get_available_moves, hp, hk]
    have hmu : Pawn.move_up p 1 pc.color = .error .subUnderflow := by
      unfold Pawn.move_up
      rw [hc]
      rw [if_neg (show ¬(Color.Black = Color.White) by decide)]
      have hlt : p.get_row < 1 := by
        dsimp only [Position.get_row]
        omega
      rw [if_pos hlt]
    unfold pawnMoves
    rw [hmu]
  · intro b p pc hp hk hc hrow
    simp only [Board.get_available_moves, hp, hk]
    have hmu : Pawn.move_up p 1 pc.color = .ok none := by
      unfold Pawn.move_up
      rw [hc, if_pos rfl]
      have ht : Position.try_new (p.get_row + 1) p.get_column = .error ⟨⟩ := by
        rw [try_new_error_iff]
        dsimp only [Position.get_row]
        omega
      rw [ht]
      rfl
    have hcond : ¬(Pawn.get_starting_row pc.color = p.get_row) := by
      rw [hc]
      simp [Pawn.get_starting_row, Position.get_row, hrow]
    unfold pawnMoves
    simp only [hmu]
    rw [if_neg hcond]
    rfl

/-- Witness for C10 at concrete inputs: the Black pawn of `edgePawnBoard`
on row 0 faults, its White pawn on row 7 yields an empty list. -/
theorem C10_underflow_witness :
    edgePawnBoard.get_piece ⟨0, 3⟩ = some ⟨Color.Black, ChessPieceType.Pawn⟩ ∧
    edgePawnBoard.get_available_moves ⟨0, 3⟩ = .error RuntimeFault.subUnderflow ∧
    edgePawnBoard.get_piece ⟨7, 2⟩ = some ⟨Color.White, ChessPieceType.Pawn⟩ ∧
    edgePawnBoard.get_available_moves ⟨7, 2⟩ = .ok [] :=
  ⟨by decide,
   C10_pawn_underflow.1 edgePawnBoard ⟨0, 3⟩ ⟨Color.Black, ChessPieceType.Pawn⟩
     (by decide) rfl rfl rfl,
   by decide,
   C10_pawn_underflow.2 edgePawnBoard ⟨7, 2⟩ ⟨Color.White, ChessPieceType.Pawn⟩
     (by decide) rfl rfl rfl⟩

/-- Counterexample to C7 as stated: moving a piece onto its own square
(`from = to`) does not empty the source — `take` blanks the square and the
assignment immediately writes the piece back, so the source square still
holds the piece. -/
theorem C7_move_piece_counterexample :
    afterSelfMove.get_piece ⟨0, 0⟩ = some ⟨Color.White, ChessPieceType.Rook⟩ ∧
    afterSelfMove.get_piece ⟨0, 0⟩ ≠ none := by
  constructor
  · decide
  · decide

/-- C7 (amended): `move_piece` always succeeds; the destination ends up
holding exactly the piece previously at the source (discarding any prior
destination occupant) and every other square is unchanged; the source is
emptied whenever it differs from the destination (when `from = to`, the
square simply retains its occupant). -/
theorem C7_move_piece_amended (b : Board) (ip fp : Position) :
    (b.move_piece ip fp).2 = .ok () ∧
    (b.move_piece ip fp).1.get_piece fp = b.get_piece ip ∧
    (ip ≠ fp → (b.move_piece ip fp).1.get_piece ip = none) ∧
    (∀ q, q ≠ ip → q ≠ fp → (b.move_piece ip fp).1.get_piece q = b.get_piece q) := by
  refine ⟨rfl, ?_, ?_, ?_⟩
  · simp [Board.move_piece, Board.setSquare, Board.get_piece]
  · intro hne
    simp [Board.move_piece, Board.setSquare, Board.get_piece, hne]
  · intro q hqi hqf
    simp [Board.move_piece, Board.setSquare, Board.get_piece, hqi, hqf]

/-- Witness for C7 (amended) at a concrete input. -/
theorem C7_move_piece_witness :
    (⟨0, 0⟩ : Position) ≠ (⟨1, 1⟩ : Position) ∧
    (rookBoard.move_piece ⟨0, 0⟩ ⟨1, 1⟩).1.get_piece ⟨0, 0⟩ = none :=
  ⟨by decide, (C7_move_piece_amended rookBoard ⟨0, 0⟩ ⟨1, 1⟩).2.2.1 (by decide)⟩

/-! The spec-modelled check detector. -/

theorem mem_allPositions {p : Position} : p ∈ allPositions ↔ inBounds p := by
  simp only [allPositions, List.mem_flatten, List.mem_map, List.mem_range]
  constructor
  · rintro ⟨l, ⟨r, hr, rfl⟩, hp⟩
    obtain ⟨c, hc, rfl⟩ := List.mem_map.mp hp
    exact ⟨hr, List.mem_range.mp hc⟩
  · rintro ⟨hr, hc⟩
    refine ⟨(List.range 8).map (fun c => ⟨p.row, c⟩), ⟨p.row, hr, rfl⟩, ?_⟩
    exact List.mem_map.mpr ⟨p.column, List.mem_range.mpr hc, by cases p; rfl⟩

theorem opponent_attacks_from_iff {b : Board} {col : Color} {t p : Position} :
    opponent_attacks_from b col t p = true ↔
      ∃ pc, b.get_piece p = some pc ∧ pc.color ≠ col ∧ t ∈ attacking_squares b pc p := by
  unfold opponent_attacks_from
  cases hg : b.get_piece p with
  | none => simp
  | some pc =>
    simp [bne_iff_ne]

theorem attacked_by_opponent_iff {b : Board} {col : Color} {t : Position} :
    attacked_by_opponent b col t = true ↔
      ∃ p pc, inBounds p ∧ b.get_piece p = some pc ∧ pc.color ≠ col ∧
        t ∈ attacking_squares b pc p := by
  unfold attacked_by_opponent
  rw [List.any_eq_true]
  constructor
  · rintro ⟨p, hp, hpred⟩
    obtain ⟨pc, h1, h2, h3⟩ := opponent_attacks_from_iff.mp hpred
    exact ⟨p, pc, mem_allPositions.mp hp, h1, h2, h3⟩
  · rintro ⟨p, pc, hb, h1, h2, h3⟩
    exact ⟨p, mem_allPositions.mpr hb, opponent_attacks_from_iff.mpr ⟨pc, h1, h2, h3⟩⟩

theorem find_king_some {b : Board} {col : Color} {k : Position}
    (h : b.find_king col = some k) :
    b.get_piece k = some ⟨col, ChessPieceType.King⟩ := by
  have hpred := List.find?_some h
  cases hg : b.get_piece k with
  | none =>
    simp only [hg] at hpred
    exact Bool.noConfusion hpred
  | some pc =>
    simp only [hg, decide_eq_true_eq] at hpred
    obtain ⟨h1, h2⟩ := hpred
    cases pc
    simp_all

/-- C1: the spec-modelled `is_king_in_check` returns `some k` exactly when
`k` is the located king square of the color and `k` lies in the union, over
every opponent piece on the board, of that piece's attacking squares
(pawns attacking their diagonal-forward squares unconditionally, every
other kind using the same candidate sets as move generation); otherwise it
returns `none`, and a board with no king of the color reports not-in-check
rather than failing.  In particular: a White king at (0,4) against a Black
rook at (7,4) on an otherwise empty file is in check at (0,4), and adding a
White pawn at (3,4) blocks the check. -/
theorem C1_is_king_in_check_correct :
    (∀ (b : Board) (col : Color),
      (∀ k, b.is_king_in_check col = some k ↔
        (b.find_king col = some k ∧
          ∃ p pc, inBounds p ∧ b.get_piece p = some pc ∧ pc.color ≠ col ∧
            k ∈ attacking_squares b pc p)) ∧
      (∀ k, b.find_king col = some k →
        b.get_piece k = some ⟨col, ChessPieceType.King⟩) ∧
      ((∀ k, inBounds k → b.get_piece k ≠ some ⟨col, ChessPieceType.King⟩) →
        b.is_king_in_check col = none)) ∧
    checkBoard1.is_king_in_check Color.White = some ⟨0, 4⟩ ∧
    checkBoard2.is_king_in_check Color.White = none ∧
    noKingBoard.is_king_in_check Color.White = none := by
  refine ⟨?_, by decide, by decide, by decide⟩
  intro b col
  refine ⟨?_, ?_, ?_⟩
  · intro k
    unfold Board.is_king_in_check
    cases hf : b.find_king col with
    | none =>
      constructor
      · intro h
        exact Option.noConfusion h
      · rintro ⟨hk, _⟩
        exact Option.noConfusion hk
    | some k0 =>
      dsimp only
      by_cases hatt : attacked_by_opponent b col k0 = true
      · rw [if_pos hatt]
        constructor
        · intro h
          rcases Option.some.inj h with rfl
          exact ⟨rfl, attacked_by_opponent_iff.mp hatt⟩
        · rintro ⟨hk, _⟩
          rcases Option.some.inj hk with rfl
          rfl
      · rw [if_neg hatt]
        constructor
        · intro h
          exact Option.noConfusion h
        · rintro ⟨hk, hex⟩
          rcases Option.some.inj hk with rfl
          exact absurd (attacked_by_opponent_iff.mpr hex) hatt
  · intro k hk
    exact find_king_some hk
  · intro hnone
    have hf : b.find_king col = none := by
      cases hf : b.find_king col with
      | none => rfl
      | some k =>
        have hkb : inBounds k :=
          mem_allPositions.mp (List.mem_of_find?_eq_some hf)
        exact absurd (find_king_some hf) (hnone k hkb)
    unfold Board.is_king_in_check
    rw [hf]

theorem noKingBoard_no_white_king :
    ∀ k, inBounds k → noKingBoard.get_piece k ≠
      some ⟨Color.White, ChessPieceType.King⟩ := by
  intro k _ h
  unfold noKingBoard Board.get_piece at h
  dsimp only at h
  split at h
  · simp at h
  · exact Option.noConfusion h

/-- Witness for C1's conditional components at concrete inputs: on
`noKingBoard` every in-bounds square is free of a White king, so the
no-king clause of the theorem yields not-in-check. -/
theorem C1_check_witness :
    (∀ k, inBounds k → noKingBoard.get_piece k ≠
      some ⟨Color.White, ChessPieceType.King⟩) ∧
    noKingBoard.is_king_in_check Color.White = none :=
  ⟨noKingBoard_no_white_king,
   (C1_is_king_in_check_correct.1 noKingBoard Color.White).2.2 noKingBoard_no_white_king⟩
